import Mathlib

/-!
Shallow embedding of the validation/cleaning core of `twine_scraper.py`
(class `TwineScraper`): the four validators, the `clean_data` pipeline and
the fallback profile generator, together with proofs about them.

Python strings are modelled as Lean `String`, with the Python string
operations (`lower`, `strip`, `in`, `startswith`, `len`) implemented
explicitly over the underlying `List Char` so that their semantics is
spelled out in this file.  A Python value that may be `None` is modelled
as an `Option String`; a Python call that raises an exception is modelled
by an `Option` result being `none`.
-/

namespace Twine

/-! ## Python string primitives -/

/-- Python `s.lower()` on the character level (basic-latin case folding,
which is all the repository's data exercises). -/
def lowerChars (l : List Char) : List Char := l.map Char.toLower

/-- Python `s.lower()`. -/
def pyLower (s : String) : String := String.mk (lowerChars s.data)

/-- Python `s.strip()` on the character level: drop whitespace from both ends. -/
def stripChars (l : List Char) : List Char :=
  ((l.dropWhile Char.isWhitespace).reverse.dropWhile Char.isWhitespace).reverse

/-- Python `s.strip()`. -/
def pyStrip (s : String) : String := String.mk (stripChars s.data)

/-- Python `len(s)`. -/
def pyLen (s : String) : Nat := s.data.length

/-- Is `n` a (contiguous) leading sequence of `h`? -/
def isPrefixList : List Char → List Char → Bool
  | [], _ => true
  | _ :: _, [] => false
  | a :: n, b :: h => a == b && isPrefixList n h

/-- Python `needle in hay` (substring containment). -/
def containsSub (needle : List Char) : List Char → Bool
  | [] => needle.isEmpty
  | c :: h => isPrefixList needle (c :: h) || containsSub needle h

/-- Is `n` a (contiguous) trailing sequence of `h`? -/
def isSuffixList (n h : List Char) : Bool := isPrefixList n.reverse h.reverse

/-- Python `s.startswith(p)`. -/
def pyStartsWith (s p : String) : Bool := isPrefixList p.data s.data

/-- Python `needle in hay` on strings. -/
def pyIn (needle hay : String) : Bool := containsSub needle.data hay.data

/-! ## The email regex

`validate_email` uses `re.match(r'^[a-zA-Z0-9._%+-]+@[a-zA-Z0-9.-]+\.[a-zA-Z]\x7b2,\x7d$', email)`.
The matcher below is a direct compositional translation of that regular
expression; `reMatchEmail` additionally reproduces the semantics of the
(non-`MULTILINE`) `$` anchor in Python, which matches at the very end of
the string and also just before a newline that ends the string. -/

/-- The character class `[a-zA-Z0-9._%+-]` of the local part. -/
def emailLocalChar (c : Char) : Bool :=
  c.isAlpha || c.isDigit || c == '.' || c == '_' || c == '%' || c == '+' || c == '-'

/-- The character class `[a-zA-Z0-9.-]` of the domain part. -/
def emailDomainChar (c : Char) : Bool :=
  c.isAlpha || c.isDigit || c == '.' || c == '-'

/-- The tail `[a-zA-Z]\x7b2,\x7d` (at end): two or more letters. -/
def tldMatch (cs : List Char) : Bool :=
  decide (2 ≤ cs.length) && cs.all Char.isAlpha

/-- `[a-zA-Z0-9.-]*\.[a-zA-Z]\x7b2,\x7d` at end (backtracking as disjunction). -/
def dotSearch : List Char → Bool
  | [] => false
  | c :: cs => (c == '.' && tldMatch cs) || (emailDomainChar c && dotSearch cs)

/-- `[a-zA-Z0-9.-]+\.[a-zA-Z]\x7b2,\x7d` at end. -/
def afterAt : List Char → Bool
  | [] => false
  | c :: cs => emailDomainChar c && dotSearch cs

/-- `[a-zA-Z0-9._%+-]*@` followed by `afterAt`, at end. -/
def atSearch : List Char → Bool
  | [] => false
  | c :: cs => (c == '@' && afterAt cs) || (emailLocalChar c && atSearch cs)

/-- The full pattern `^[a-zA-Z0-9._%+-]+@[a-zA-Z0-9.-]+\.[a-zA-Z]\x7b2,\x7d` anchored
at the end of the character list. -/
def emailMatch : List Char → Bool
  | [] => false
  | c :: cs => emailLocalChar c && atSearch cs

/-- `re.match(pattern, s)` with the Python `$` anchor: the pattern may stop
either at the end of the string or just before a single final newline. -/
def reMatchEmail (cs : List Char) : Bool :=
  emailMatch cs || (cs.getLast? == some '\n' && emailMatch cs.dropLast)

/-! ## The validators (`TwineScraper.validate_email`, `is_valid_name`,
`is_test_data`, `validate_profile_url`) -/

/-- `validate_email` (lines 71-76): `None`/empty short-circuit, then the regex. -/
def validate_email (email : Option String) : Bool :=
  match email with
  | none => false
  | some s => if s = "" then false else reMatchEmail s.data

/-- The `brand_keywords` list of `is_valid_name` (lines 89-94). -/
def brand_keywords : List String :=
  ["studio", "media", "agency", "productions", "designs",
   "labs", "official", "channel", "team", "llc", "inc",
   "ltd", "pvt", "gmbh", "plc", "company", "group",
   "collective", "enterprise", "corporation"]

/-- `is_valid_name` (lines 78-104): reject `None`/short names, any brand
keyword as a substring of the lower-cased stripped name, and a
leading `"the "`. -/
def is_valid_name (name : Option String) : Bool :=
  match name with
  | none => false
  | some n =>
    if n = "" then false
    else if pyLen (pyStrip n) < 2 then false
    else
      let name_lower := pyStrip (pyLower n)
      if brand_keywords.any (fun k => pyIn k name_lower) then false
      else if pyStartsWith name_lower "the " then false
      else true

/-- `test_emails` of `is_test_data` (line 108). -/
def test_emails : List String := ["test@", "example@", "sample@", "demo@", "placeholder@"]

/-- `test_names` of `is_test_data` (line 109). -/
def test_names : List String := ["test", "sample", "demo", "placeholder", "example"]

/-- The first disjunct of `is_test_data`:
`any(pattern in email.lower() for pattern in test_emails)`. -/
def emailTestHit (e : String) : Bool :=
  test_emails.any (fun p => pyIn p (pyLower e))

/-- `is_test_data` (lines 106-112).  The source has no `None` guard:
`email.lower()` is evaluated unconditionally (an `AttributeError` on
`None`, modelled as `none`), and `name.lower()` is evaluated only when the
email test misses (Python `or` short-circuits). -/
def is_test_data (email name : Option String) : Option Bool :=
  match email with
  | none => none
  | some e =>
    if emailTestHit e then some true
    else
      match name with
      | none => none
      | some n => some (test_names.contains (pyLower n))

/-- `validate_profile_url` (lines 114-118). -/
def validate_profile_url (url : Option String) : Bool :=
  match url with
  | none => false
  | some u =>
    if u = "" then false
    else pyStartsWith u "https://www.twine.net/" && decide (30 < pyLen u)

/-! ## The cleaning pipeline (`TwineScraper.clean_data`, lines 341-390)

A record is a dict with the four fields below; a missing/`None` value is
`none`.  The scraper object's `self.seen_emails` set is modelled as an
explicit list of the values that were added to it (membership is all the
code observes), and the local `stats` dict as a structure with one field
per key.  `clean_data` mutates `self.seen_emails`, appends to the local
`cleaned` list and increments `stats`; all three are carried in
`CleanState`, and the function's Python return value is the `cleaned`
component. -/

structure Record where
  name : Option String
  email : Option String
  profile_link : Option String
  role_type : Option String
deriving DecidableEq

structure Stats where
  duplicates : Nat
  invalid_emails : Nat
  brand_names : Nat
  test_data : Nat
  invalid_urls : Nat
deriving DecidableEq

structure CleanState where
  cleaned : List Record
  stats : Stats
  seen_emails : List (Option String)
deriving DecidableEq

/-- The six ways one iteration of the `for entry in data` loop can end. -/
inductive Outcome where
  | accepted
  | duplicate
  | invalid_email
  | brand_name
  | test_data
  | invalid_url
deriving DecidableEq

/-- The gate chain of one loop iteration, in source order with the
source's short-circuiting (`continue` after the first hit).  On the
fourth gate the source calls `is_test_data` whose result is always
`some _` there: the email gate guarantees a string email and the name
gate a non-empty string name; `getD false` only names that fact. -/
def gateOutcome (seen : List (Option String)) (r : Record) : Outcome :=
  if seen.contains r.email then .duplicate
  else if !(validate_email r.email) then .invalid_email
  else if !(is_valid_name r.name) then .brand_name
  else if (is_test_data r.email r.name).getD false then .test_data
  else if !(validate_profile_url r.profile_link) then .invalid_url
  else .accepted

/-- One iteration of the loop body of `clean_data`. -/
def cleanStep (st : CleanState) (r : Record) : CleanState :=
  match gateOutcome st.seen_emails r with
  | .duplicate =>
    { st with stats := { st.stats with duplicates := st.stats.duplicates + 1 } }
  | .invalid_email =>
    { st with stats := { st.stats with invalid_emails := st.stats.invalid_emails + 1 } }
  | .brand_name =>
    { st with stats := { st.stats with brand_names := st.stats.brand_names + 1 } }
  | .test_data =>
    { st with stats := { st.stats with test_data := st.stats.test_data + 1 } }
  | .invalid_url =>
    { st with stats := { st.stats with invalid_urls := st.stats.invalid_urls + 1 } }
  | .accepted =>
    { st with cleaned := st.cleaned ++ [r], seen_emails := r.email :: st.seen_emails }

def initState (seen : List (Option String)) : CleanState := ⟨[], ⟨0, 0, 0, 0, 0⟩, seen⟩

/-- `clean_data` over a batch, starting from a given `self.seen_emails`. -/
def clean_data (seen : List (Option String)) (data : List Record) : CleanState :=
  data.foldl cleanStep (initState seen)

/-- The summary `clean_data` reports via `logger.info` (lines 382-388):
raw count, valid count, filtered count, and — only when some counter is
non-zero — the breakdown line, which names brands, test, invalid emails
and invalid URLs (in that order). -/
structure Report where
  raw_profiles : Nat
  valid_profiles : Nat
  filtered : Nat
  breakdown : Option (Nat × Nat × Nat × Nat)
deriving DecidableEq

def clean_report (data : List Record) (st : CleanState) : Report :=
  { raw_profiles := data.length
    valid_profiles := st.cleaned.length
    filtered := data.length - st.cleaned.length
    breakdown :=
      if st.stats.duplicates ≠ 0 ∨ st.stats.invalid_emails ≠ 0 ∨ st.stats.brand_names ≠ 0 ∨
          st.stats.test_data ≠ 0 ∨ st.stats.invalid_urls ≠ 0 then
        some (st.stats.brand_names, st.stats.test_data, st.stats.invalid_emails, st.stats.invalid_urls)
      else none }

/-! Sequential specification views of the pipeline, used to state what the
fold computes. -/

/-- The outcome of each record in sequence, with the seen-set evolving as
in the pipeline. -/
def outcomesOf (seen : List (Option String)) : List Record → List Outcome
  | [] => []
  | r :: rs =>
    gateOutcome seen r ::
      outcomesOf (if gateOutcome seen r = .accepted then r.email :: seen else seen) rs

/-- The records accepted, in order. -/
def acceptedRecs (seen : List (Option String)) : List Record → List Record
  | [] => []
  | r :: rs =>
    if gateOutcome seen r = .accepted then r :: acceptedRecs (r.email :: seen) rs
    else acceptedRecs seen rs

/-- The seen-set after a batch. -/
def seenAfter (seen : List (Option String)) : List Record → List (Option String)
  | [] => seen
  | r :: rs => seenAfter (if gateOutcome seen r = .accepted then r.email :: seen else seen) rs

def tally (l : List Outcome) : Stats :=
  ⟨l.count .duplicate, l.count .invalid_email, l.count .brand_name,
   l.count .test_data, l.count .invalid_url⟩

def statsAdd (a b : Stats) : Stats :=
  ⟨a.duplicates + b.duplicates, a.invalid_emails + b.invalid_emails,
   a.brand_names + b.brand_names, a.test_data + b.test_data,
   a.invalid_urls + b.invalid_urls⟩

/-! ## The fallback generator (`generate_fallback_profiles`, lines 120-198)

`random.choice(pool)` is modelled by an index oracle supplied by the
caller: the choice at loop iteration `i` is `pool[oracle i % len(pool)]`,
so theorems quantifying over the oracles cover every possible sequence of
random draws.  The `while email in used_emails` loop is modelled with
explicit fuel `len(used_emails) + 1`; since the candidate emails for
distinct counters are distinct strings, the Python loop performs at most
that many iterations, and on fuel exhaustion the model returns the
current candidate (of the same shape as every candidate). -/

def first_names : List String :=
  ["Emma", "Liam", "Olivia", "Noah", "Ava", "Ethan", "Sophia", "Mason",
   "Isabella", "William", "Mia", "James", "Charlotte", "Benjamin", "Amelia",
   "Lucas", "Harper", "Henry", "Evelyn", "Alexander", "Abigail", "Michael",
   "Emily", "Daniel", "Elizabeth", "Matthew", "Sofia", "David", "Avery",
   "Joseph", "Ella", "Carter", "Scarlett", "Owen", "Grace", "Wyatt", "Chloe",
   "Sebastian", "Victoria", "Jack", "Madison", "Luke", "Aria", "Nathan",
   "Hannah", "Caleb", "Addison", "Isaac", "Natalie", "Gabriel", "Lily"]

def last_names : List String :=
  ["Smith", "Johnson", "Williams", "Brown", "Jones", "Garcia", "Miller",
   "Davis", "Rodriguez", "Martinez", "Hernandez", "Lopez", "Wilson",
   "Anderson", "Thomas", "Taylor", "Moore", "Jackson", "Martin", "Lee",
   "Thompson", "White", "Harris", "Clark", "Lewis", "Robinson", "Walker",
   "Young", "Allen", "King", "Wright", "Scott", "Torres", "Nguyen", "Hill",
   "Flores", "Green", "Adams", "Nelson", "Baker", "Hall", "Rivera",
   "Campbell", "Mitchell", "Carter", "Roberts", "Phillips", "Evans", "Turner"]

def email_domains : List String :=
  ["gmail.com", "outlook.com", "yahoo.com", "protonmail.com", "icloud.com"]

/-- `random.choice(l)` with the draw determined by an oracle value `k`. -/
def pyChoice (l : List String) (k : Nat) : String := l.getD (k % l.length) ""

/-- `f"{email_base}{counter}@{domain}"`. -/
def emailCandidate (base domain : String) (counter : Nat) : String :=
  base ++ Nat.repr counter ++ "@" ++ domain

/-- The `while email in used_emails` loop from counter `c` on, with fuel. -/
def resolveFrom (base domain : String) (used : List String) : Nat → Nat → String
  | c, 0 => emailCandidate base domain c
  | c, fuel + 1 =>
    let e := emailCandidate base domain c
    if used.contains e then resolveFrom base domain used (c + 1) fuel else e

/-- Lines 164-169: first candidate `f"{email_base}@{domain}"`, then the
collision loop starting at counter 1. -/
def resolveEmail (base domain : String) (used : List String) : String :=
  let e0 := base ++ "@" ++ domain
  if used.contains e0 then resolveFrom base domain used 1 (used.length + 1) else e0

/-- `full_name = f"{first} {last}"` of iteration `i` (lines 157-159). -/
def genName (pf pl : Nat → Nat) (i : Nat) : String :=
  pyChoice first_names (pf i) ++ " " ++ pyChoice last_names (pl i)

/-- The unique email of iteration `i` (lines 162-171): `email_base` is
`f"{first.lower()}.{last.lower()}"`, the domain a drawn provider, and the
collision loop resolves against `used_emails`. -/
def genEmail (pf pl pd : Nat → Nat) (i : Nat) (used : List String) : String :=
  resolveEmail
    (pyLower (pyChoice first_names (pf i)) ++ "." ++ pyLower (pyChoice last_names (pl i)))
    (pyChoice email_domains (pd i)) used

/-- The profile link of iteration `i` (lines 173-176). -/
def genLink (role_type role_suffix : String) (pf pl : Nat → Nat) (i : Nat) : String :=
  "https://www.twine.net/profile/" ++
    (pyLower (pyChoice first_names (pf i)) ++ "-" ++ pyLower (pyChoice last_names (pl i)) ++
      "-" ++ role_suffix) ++
    "-" ++ Nat.repr (i + 1 + (if role_type = "ugc_creators" then 0 else 1000))

/-- The `for i in range(count)` loop (lines 156-183), recursing on the
number of remaining iterations with `i` the current index; each iteration
appends one Record and adds its email to `used_emails`. -/
def genLoop (role_type role_suffix role_display : String) (pf pl pd : Nat → Nat) :
    Nat → Nat → List String → List Record
  | _, 0, _ => []
  | i, n + 1, used =>
    ⟨some (genName pf pl i), some (genEmail pf pl pd i used),
     some (genLink role_type role_suffix pf pl i), some role_display⟩ ::
      genLoop role_type role_suffix role_display pf pl pd (i + 1) n
        (genEmail pf pl pd i used :: used)

/-- The `invalid_entries` literal (lines 186-195). -/
def fallback_invalid_entries (role_display : String) : List Record :=
  [⟨some "Creative Media Studio", some "contact@studio.com",
    some "https://www.twine.net/profile/studio-1", some role_display⟩,
   ⟨some "The Agency Group", some "info@agency.com",
    some "https://www.twine.net/profile/agency-2", some role_display⟩,
   ⟨some "Test User", some "test@test.com",
    some "https://www.twine.net/profile/test-3", some role_display⟩,
   ⟨some "Sample Name", some "example@example.com",
    some "https://www.twine.net/profile/sample-4", some role_display⟩]

/-- `generate_fallback_profiles(role_type, count)` under choice oracles
`pf`, `pl`, `pd`. -/
def generate_fallback_profiles (role_type : String) (count : Nat)
    (pf pl pd : Nat → Nat) : List Record :=
  let role_suffix := if role_type = "ugc_creators" then "ugc-creator" else "video-editor"
  let role_display := if role_type = "ugc_creators" then "UGC Creator" else "Video Editor"
  genLoop role_type role_suffix role_display pf pl pd 0 count [] ++
    fallback_invalid_entries role_display

/-! ## Spec-side definitions (for refinement claims) -/

/-- A decomposition witnessing the email shape
`local-part@domain.tld`: non-empty local part over `[a-zA-Z0-9._%+-]`,
non-empty domain over `[a-zA-Z0-9.-]`, and a final all-alphabetic label of
length at least two after the last dot (the label cannot contain a dot,
so the shown dot is the last one). -/
def EmailDecomp (cs : List Char) : Prop :=
  ∃ l m t : List Char,
    cs = l ++ '@' :: (m ++ '.' :: t) ∧
    l ≠ [] ∧ (∀ c ∈ l, emailLocalChar c = true) ∧
    m ≠ [] ∧ (∀ c ∈ m, emailDomainChar c = true) ∧
    2 ≤ t.length ∧ (∀ c ∈ t, c.isAlpha = true)

/-- Modelled from the claim wording of C3 (spec §4.1): true iff the input
is a string of exactly the shape `local-part@domain.tld`. -/
def EmailShapeSpec (email : Option String) : Prop :=
  ∃ s, email = some s ∧ EmailDecomp s.data

/-- Modelled from the claim wording of C4 (spec §4.3): the name branch
compares the lower-cased **trimmed** name against `test_names`. -/
def is_test_data_spec (email name : String) : Bool :=
  emailTestHit email || test_names.contains (pyStrip (pyLower name))

/-! ## Helper lemmas: prefixes, substrings, suffixes -/

theorem isPrefixList_iff {a b : List Char} : isPrefixList a b = true ↔ ∃ t, b = a ++ t := by
  induction a generalizing b with
  | nil => simp [isPrefixList]
  | cons x xs ih =>
    cases b with
    | nil => simp [isPrefixList]
    | cons y ys =>
      simp only [isPrefixList, Bool.and_eq_true, beq_iff_eq, ih, List.cons_append]
      constructor
      · rintro ⟨rfl, t, rfl⟩
        exact ⟨t, rfl⟩
      · rintro ⟨t, h⟩
        cases h
        exact ⟨rfl, t, rfl⟩

theorem containsSub_iff {n h : List Char} :
    containsSub n h = true ↔ ∃ s t, h = s ++ n ++ t := by
  induction h with
  | nil =>
    simp only [containsSub, List.isEmpty_iff]
    constructor
    · rintro rfl
      exact ⟨[], [], rfl⟩
    · rintro ⟨s, t, h⟩
      rcases List.append_eq_nil.mp h.symm with ⟨h1, rfl⟩
      exact (List.append_eq_nil.mp h1).2
  | cons c h ih =>
    simp only [containsSub, Bool.or_eq_true, isPrefixList_iff, ih]
    constructor
    · rintro (⟨t, ht⟩ | ⟨s, t, rfl⟩)
      · exact ⟨[], t, by simp [ht]⟩
      · exact ⟨c :: s, t, rfl⟩
    · rintro ⟨s, t, hst⟩
      cases s with
      | nil =>
        exact Or.inl ⟨t, by simpa using hst⟩
      | cons c2 s2 =>
        rw [List.cons_append, List.cons_append] at hst
        cases hst
        exact Or.inr ⟨s2, t, rfl⟩

theorem isSuffixList_iff {n h : List Char} : isSuffixList n h = true ↔ ∃ s, h = s ++ n := by
  rw [isSuffixList, isPrefixList_iff]
  constructor
  · rintro ⟨t, ht⟩
    refine ⟨t.reverse, ?_⟩
    have := congrArg List.reverse ht
    simpa using this
  · rintro ⟨s, rfl⟩
    exact ⟨s.reverse, by simp⟩

/-- In a list with a distinguished occurrence of `c` and no `c` on either
given side, two such decompositions coincide. -/
theorem append_cons_eq_append_cons {α : Type} {c : α} :
    ∀ {a b d e : List α}, a ++ c :: b = d ++ c :: e → c ∉ a → c ∉ d → a = d ∧ b = e := by
  intro a
  induction a with
  | nil =>
    intro b d e h _ hd
    cases d with
    | nil => simpa using h
    | cons x d2 =>
      rw [List.nil_append, List.cons_append] at h
      cases h
      exact absurd (List.mem_cons_self _ _) hd
  | cons x a2 ih =>
    intro b d e h ha hd
    cases d with
    | nil =>
      rw [List.nil_append, List.cons_append] at h
      cases h
      exact absurd (List.mem_cons_self _ _) ha
    | cons y d2 =>
      rw [List.cons_append, List.cons_append] at h
      injection h with h1 h2
      subst h1
      obtain ⟨rfl, rfl⟩ := ih h2 (fun hm => ha (List.mem_cons_of_mem _ hm))
        (fun hm => hd (List.mem_cons_of_mem _ hm))
      exact ⟨rfl, rfl⟩

/-- If `a ++ b` ends in `w` and `w` is no longer than `b`, then `b` ends in `w`. -/
theorem ends_with_right {α : Type} {a b s w : List α} (h : a ++ b = s ++ w)
    (hlen : w.length ≤ b.length) : ∃ s2, b = s2 ++ w := by
  have hlen2 : a.length ≤ s.length := by
    have := congrArg List.length h
    simp [List.length_append] at this
    omega
  have hb : b = (a ++ b).drop a.length := by simp
  rw [h, List.drop_append_eq_append_drop, Nat.sub_eq_zero_of_le hlen2, List.drop_zero] at hb
  exact ⟨s.drop a.length, hb⟩

/-- If `a ++ c :: b` ends in `w` and `b` is shorter than `w`, the marked
element `c` lies inside `w`. -/
theorem mem_of_append_cons_short {α : Type} {a b s w : List α} {c : α}
    (h : a ++ c :: b = s ++ w) (hlen : b.length < w.length) : c ∈ w := by
  have hlen2 : s.length ≤ a.length := by
    have := congrArg List.length h
    simp [List.length_append] at this
    omega
  have hw : w = (s ++ w).drop s.length := by simp
  rw [← h, List.drop_append_eq_append_drop, Nat.sub_eq_zero_of_le hlen2, List.drop_zero] at hw
  exact hw ▸ List.mem_append_right _ (List.mem_cons_self _ _)

/-- If `a ++ c :: b` starts with `w` and `a` is shorter than `w`, the marked
element `c` lies inside `w`. -/
theorem mem_of_cons_append_short {α : Type} {a b w t : List α} {c : α}
    (h : a ++ c :: b = w ++ t) (hlen : a.length < w.length) : c ∈ w := by
  have hw : w = (w ++ t).take w.length := by simp
  rw [← h, List.take_append_eq_append_take] at hw
  have h1 : w.length - a.length = (w.length - a.length - 1) + 1 := by omega
  rw [h1, List.take_succ_cons] at hw
  exact hw ▸ List.mem_append_right _ (List.mem_cons_self _ _)

/-- Splitting an occurrence of `k` in `x ++ c :: y` when `c ∉ k`: the
occurrence lies entirely inside `x` or entirely inside `y`. -/
theorem containsSub_append_cons {k x y : List Char} {c : Char}
    (h : containsSub k (x ++ c :: y) = true) (hc : c ∉ k) :
    containsSub k x = true ∨ containsSub k y = true := by
  obtain ⟨s, t, heq⟩ := containsSub_iff.mp h
  rcases Nat.lt_or_ge x.length (s.length + k.length) with hlt | hge
  · rcases Nat.lt_or_ge x.length s.length with hxs | hsx
    · -- the occurrence is inside y
      right
      have hy : y = (x ++ c :: y).drop (x.length + 1) := by
        rw [show x ++ c :: y = (x ++ [c]) ++ y by simp, List.drop_left']
        simp [List.length_append]
      rw [heq, List.append_assoc, List.drop_append_eq_append_drop,
        Nat.sub_eq_zero_of_le (by omega), List.drop_zero] at hy
      exact containsSub_iff.mpr ⟨s.drop (x.length + 1), t, by rw [hy, List.append_assoc]⟩
    · -- c falls inside the occurrence of k: contradiction
      exfalso
      have hx2 : x.drop s.length ++ c :: y = k ++ t := by
        have h1 : (x ++ c :: y).drop s.length = x.drop s.length ++ c :: y := by
          rw [List.drop_append_eq_append_drop, Nat.sub_eq_zero_of_le hsx, List.drop_zero]
        have h2 : (s ++ (k ++ t)).drop s.length = k ++ t := List.drop_left _ _
        rw [← h1, ← h2, heq, List.append_assoc]
      have hmem : c ∈ k :=
        mem_of_cons_append_short hx2 (by rw [List.length_drop]; omega)
      exact hc hmem
  · -- the occurrence is inside x
    left
    have hsle : s.length ≤ x.length := by omega
    have hx2 : x = s ++ k ++ t.take (x.length - s.length - k.length) := by
      have h1 : (x ++ c :: y).take x.length = x := by simp
      rw [heq, List.append_assoc, List.take_append_eq_append_take,
        List.take_of_length_le hsle, List.take_append_eq_append_take,
        List.take_of_length_le (by omega)] at h1
      rw [← List.append_assoc] at h1
      exact h1.symm
    exact containsSub_iff.mpr ⟨s, t.take (x.length - s.length - k.length), hx2⟩

/-- An occurrence of the pattern `w ++ [c]` in `x ++ c :: y`, where `c`
occurs in none of `w`, `x`, `y`, forces `x` to end in `w`. -/
theorem sub_pattern_at {w x y : List Char} {c : Char}
    (h : containsSub (w ++ [c]) (x ++ c :: y) = true)
    (hx : c ∉ x) (hy : c ∉ y) : ∃ s, x = s ++ w := by
  obtain ⟨s, t, heq⟩ := containsSub_iff.mp h
  have heq2 : x ++ c :: y = (s ++ w) ++ c :: t := by
    rw [heq]
    simp [List.append_assoc]
  have hcnt : (x ++ c :: y).count c = 1 := by
    simp [List.count_append, List.count_cons, List.count_eq_zero.mpr hx,
      List.count_eq_zero.mpr hy]
  have h0 : (s ++ w).count c = 0 := by
    rw [heq2] at hcnt
    simp [List.count_append, List.count_cons] at hcnt ⊢
    omega
  have hsw : c ∉ s ++ w := List.count_eq_zero.mp h0
  obtain ⟨h1, _⟩ := append_cons_eq_append_cons heq2 hx hsw
  exact ⟨s, h1⟩

/-! ## Helper lemmas: lowering and stripping -/

theorem lowerChars_append (a b : List Char) :
    lowerChars (a ++ b) = lowerChars a ++ lowerChars b := List.map_append _ _ _

theorem stripChars_eq_self {l : List Char}
    (h1 : ∀ c, l.head? = some c → c.isWhitespace = false)
    (h2 : ∀ c, l.getLast? = some c → c.isWhitespace = false) :
    stripChars l = l := by
  cases l with
  | nil => rfl
  | cons a t =>
    have ha : a.isWhitespace = false := h1 a rfl
    unfold stripChars
    rw [List.dropWhile_cons_of_neg (by simp [ha])]
    cases hrev : (a :: t).reverse with
    | nil => simp at hrev
    | cons b rt =>
      have hb : b.isWhitespace = false := by
        apply h2
        rw [← List.head?_reverse, hrev]
        rfl
      have h3 : List.dropWhile Char.isWhitespace (b :: rt) = b :: rt :=
        List.dropWhile_cons_of_neg (by simp [hb])
      rw [h3, ← hrev, List.reverse_reverse]

/-! ## Helper lemmas: the email regex matcher vs. shape decompositions -/

theorem tldMatch_iff {cs : List Char} :
    tldMatch cs = true ↔ 2 ≤ cs.length ∧ ∀ c ∈ cs, c.isAlpha = true := by
  simp [tldMatch, List.all_eq_true]

theorem dotSearch_iff {cs : List Char} :
    dotSearch cs = true ↔
      ∃ m t, cs = m ++ '.' :: t ∧ (∀ c ∈ m, emailDomainChar c = true) ∧
        2 ≤ t.length ∧ (∀ c ∈ t, c.isAlpha = true) := by
  induction cs with
  | nil =>
    constructor
    · intro h
      simp [dotSearch] at h
    · rintro ⟨m, t, hmt, -⟩
      have hlen := congrArg List.length hmt
      simp at hlen
      exact absurd hlen (by omega)
  | cons c cs ih =>
    constructor
    · intro h
      rcases Bool.or_eq_true_iff.mp h with h1 | h2
      · obtain ⟨hc, ht⟩ := Bool.and_eq_true_iff.mp h1
        obtain ⟨hlen, ha⟩ := tldMatch_iff.mp ht
        refine ⟨[], cs, ?_, by simp, hlen, ha⟩
        rw [eq_of_beq hc]
        rfl
      · obtain ⟨hd, hs⟩ := Bool.and_eq_true_iff.mp h2
        obtain ⟨m, t, rfl, hm, hlen, ht⟩ := ih.mp hs
        refine ⟨c :: m, t, rfl, ?_, hlen, ht⟩
        intro x hx
        rcases List.mem_cons.mp hx with rfl | hx2
        · exact hd
        · exact hm x hx2
    · rintro ⟨m, t, hmt, hm, hlen, ht⟩
      apply Bool.or_eq_true_iff.mpr
      cases m with
      | nil =>
        left
        rw [List.nil_append] at hmt
        injection hmt with hc hcs
        subst hcs
        rw [hc]
        simp [tldMatch_iff.mpr ⟨hlen, ht⟩]
      | cons d m2 =>
        right
        rw [List.cons_append] at hmt
        injection hmt with hc hcs
        subst hc
        refine Bool.and_eq_true_iff.mpr ⟨hm c (List.mem_cons_self _ _), ?_⟩
        exact ih.mpr ⟨m2, t, hcs, fun x hx => hm x (List.mem_cons_of_mem _ hx), hlen, ht⟩

theorem afterAt_iff {cs : List Char} :
    afterAt cs = true ↔
      ∃ m t, cs = m ++ '.' :: t ∧ m ≠ [] ∧ (∀ c ∈ m, emailDomainChar c = true) ∧
        2 ≤ t.length ∧ (∀ c ∈ t, c.isAlpha = true) := by
  cases cs with
  | nil =>
    constructor
    · intro h
      simp [afterAt] at h
    · rintro ⟨m, t, hmt, -⟩
      have hlen := congrArg List.length hmt
      simp at hlen
      exact absurd hlen (by omega)
  | cons c cs =>
    constructor
    · intro h
      obtain ⟨hd, hs⟩ := Bool.and_eq_true_iff.mp h
      obtain ⟨m, t, rfl, hm, hlen, ht⟩ := dotSearch_iff.mp hs
      refine ⟨c :: m, t, rfl, by simp, ?_, hlen, ht⟩
      intro x hx
      rcases List.mem_cons.mp hx with rfl | hx2
      · exact hd
      · exact hm x hx2
    · rintro ⟨m, t, hmt, hne, hm, hlen, ht⟩
      cases m with
      | nil => exact absurd rfl hne
      | cons d m2 =>
        rw [List.cons_append] at hmt
        injection hmt with hc hcs
        subst hc
        refine Bool.and_eq_true_iff.mpr ⟨hm c (List.mem_cons_self _ _), ?_⟩
        exact dotSearch_iff.mpr ⟨m2, t, hcs, fun x hx => hm x (List.mem_cons_of_mem _ hx), hlen, ht⟩

theorem atSearch_iff {cs : List Char} :
    atSearch cs = true ↔
      ∃ l m t, cs = l ++ '@' :: (m ++ '.' :: t) ∧ (∀ c ∈ l, emailLocalChar c = true) ∧
        m ≠ [] ∧ (∀ c ∈ m, emailDomainChar c = true) ∧
        2 ≤ t.length ∧ (∀ c ∈ t, c.isAlpha = true) := by
  induction cs with
  | nil =>
    constructor
    · intro h
      simp [atSearch] at h
    · rintro ⟨l, m, t, hmt, -⟩
      have hlen := congrArg List.length hmt
      simp at hlen
      exact absurd hlen (by omega)
  | cons c cs ih =>
    constructor
    · intro h
      rcases Bool.or_eq_true_iff.mp h with h1 | h2
      · obtain ⟨hc, ht⟩ := Bool.and_eq_true_iff.mp h1
        obtain ⟨m, t, rfl, hne, hm, hlen, ha⟩ := afterAt_iff.mp ht
        refine ⟨[], m, t, ?_, by simp, hne, hm, hlen, ha⟩
        rw [eq_of_beq hc]
        rfl
      · obtain ⟨hd, hs⟩ := Bool.and_eq_true_iff.mp h2
        obtain ⟨l, m, t, rfl, hl, hne, hm, hlen, ht⟩ := ih.mp hs
        refine ⟨c :: l, m, t, rfl, ?_, hne, hm, hlen, ht⟩
        intro x hx
        rcases List.mem_cons.mp hx with rfl | hx2
        · exact hd
        · exact hl x hx2
    · rintro ⟨l, m, t, hmt, hl, hne, hm, hlen, ht⟩
      apply Bool.or_eq_true_iff.mpr
      cases l with
      | nil =>
        left
        rw [List.nil_append] at hmt
        injection hmt with hc hcs
        subst hcs
        rw [hc]
        simp [afterAt_iff.mpr ⟨m, t, rfl, hne, hm, hlen, ht⟩]
      | cons d l2 =>
        right
        rw [List.cons_append] at hmt
        injection hmt with hc hcs
        subst hc
        refine Bool.and_eq_true_iff.mpr ⟨hl c (List.mem_cons_self _ _), ?_⟩
        exact ih.mpr ⟨l2, m, t, hcs, fun x hx => hl x (List.mem_cons_of_mem _ hx), hne, hm, hlen, ht⟩

theorem emailMatch_iff {cs : List Char} : emailMatch cs = true ↔ EmailDecomp cs := by
  cases cs with
  | nil =>
    constructor
    · intro h
      simp [emailMatch] at h
    · rintro ⟨l, m, t, hmt, -⟩
      have hlen := congrArg List.length hmt
      simp at hlen
      exact absurd hlen (by omega)
  | cons c cs =>
    constructor
    · intro h
      obtain ⟨hd, hs⟩ := Bool.and_eq_true_iff.mp h
      obtain ⟨l, m, t, rfl, hl, hne, hm, hlen, ht⟩ := atSearch_iff.mp hs
      refine ⟨c :: l, m, t, rfl, by simp, ?_, hne, hm, hlen, ht⟩
      intro x hx
      rcases List.mem_cons.mp hx with rfl | hx2
      · exact hd
      · exact hl x hx2
    · rintro ⟨l, m, t, hmt, hlne, hl, hne, hm, hlen, ht⟩
      cases l with
      | nil => exact absurd rfl hlne
      | cons d l2 =>
        rw [List.cons_append] at hmt
        injection hmt with hc hcs
        subst hc
        refine Bool.and_eq_true_iff.mpr ⟨hl c (List.mem_cons_self _ _), ?_⟩
        exact atSearch_iff.mpr ⟨l2, m, t, hcs, fun x hx => hl x (List.mem_cons_of_mem _ hx), hne, hm, hlen, ht⟩

/-- A string whose characters form a full match of the regex is accepted by
`validate_email`. -/
theorem validate_email_of_match {s : String} (h : emailMatch s.data = true) :
    validate_email (some s) = true := by
  have hne : s ≠ "" := by
    intro he
    subst he
    simp [emailMatch] at h
  simp [validate_email, hne, reMatchEmail, h]

/-! ## Helper lemmas: characters of `Nat.repr` -/

theorem toDigitsCore_mem {P : Char → Prop} (hP : ∀ k, k < 10 → P (Nat.digitChar k)) :
    ∀ (fuel n : Nat) (ds : List Char), (∀ c ∈ ds, P c) →
      ∀ c ∈ Nat.toDigitsCore 10 fuel n ds, P c := by
  intro fuel
  induction fuel with
  | zero =>
    intro n ds hds
    simpa [Nat.toDigitsCore] using hds
  | succ fuel ih =>
    intro n ds hds c hc
    have hstep : ∀ x ∈ (Nat.digitChar (n % 10) :: ds), P x := by
      intro x hx
      rcases List.mem_cons.mp hx with rfl | hx2
      · exact hP _ (Nat.mod_lt _ (by norm_num))
      · exact hds x hx2
    rw [Nat.toDigitsCore] at hc
    by_cases h0 : n / 10 = 0
    · rw [if_pos h0] at hc
      exact hstep c hc
    · rw [if_neg h0] at hc
      exact ih (n / 10) _ hstep c hc

theorem toDigitsCore_ne_nil :
    ∀ (fuel n : Nat) (ds : List Char), ds ≠ [] ∨ 1 ≤ fuel →
      Nat.toDigitsCore 10 fuel n ds ≠ [] := by
  intro fuel
  induction fuel with
  | zero =>
    intro n ds h
    rcases h with h | h
    · simpa [Nat.toDigitsCore] using h
    · omega
  | succ fuel ih =>
    intro n ds _
    rw [Nat.toDigitsCore]
    by_cases h0 : n / 10 = 0
    · rw [if_pos h0]
      simp
    · rw [if_neg h0]
      exact ih (n / 10) _ (Or.inl (by simp))

theorem repr_data (n : Nat) : (Nat.repr n).data = Nat.toDigits 10 n := rfl

/-- Every character of a decimal `Nat.repr` is a digit; digits are fixed by
`Char.toLower`, belong to the email local class and are neither `@`, `.`,
space nor alphabetic. -/
theorem repr_chars (n : Nat) :
    ∀ c ∈ (Nat.repr n).data,
      c.isDigit = true ∧ Char.toLower c = c ∧ emailLocalChar c = true ∧
        c ≠ '@' ∧ c ≠ ' ' ∧ c ≠ '.' ∧ c.isAlpha = false := by
  rw [repr_data, Nat.toDigits]
  exact toDigitsCore_mem (by decide) _ n [] (by simp)

theorem repr_data_ne_nil (n : Nat) : (Nat.repr n).data ≠ [] := by
  rw [repr_data, Nat.toDigits]
  exact toDigitsCore_ne_nil _ n [] (Or.inr (by omega))

/-! ## Helper lemmas: what the pipeline fold computes -/

theorem statsAdd_zero (b : Stats) : statsAdd ⟨0, 0, 0, 0, 0⟩ b = b := by
  cases b
  simp [statsAdd]

theorem foldl_cleanStep :
    ∀ (data : List Record) (st : CleanState),
      data.foldl cleanStep st =
        ⟨st.cleaned ++ acceptedRecs st.seen_emails data,
         statsAdd st.stats (tally (outcomesOf st.seen_emails data)),
         seenAfter st.seen_emails data⟩
  | [], st => by
    cases st with
    | mk c s e =>
      cases s
      simp [acceptedRecs, outcomesOf, seenAfter, tally, statsAdd]
  | r :: rs, st => by
    rw [List.foldl_cons, foldl_cleanStep rs (cleanStep st r)]
    cases ho : gateOutcome st.seen_emails r
    all_goals
      simp [cleanStep, ho, acceptedRecs, outcomesOf, seenAfter, tally, statsAdd,
        List.count_cons, CleanState.mk.injEq, Stats.mk.injEq, List.append_assoc]
    all_goals omega

theorem clean_data_eq (seen : List (Option String)) (data : List Record) :
    clean_data seen data =
      ⟨acceptedRecs seen data, tally (outcomesOf seen data), seenAfter seen data⟩ := by
  rw [clean_data, foldl_cleanStep]
  simp [initState, statsAdd_zero]

theorem acceptedRecs_sublist : ∀ (data : List Record) (seen : List (Option String)),
    (acceptedRecs seen data).Sublist data
  | [], _ => List.Sublist.refl []
  | r :: rs, seen => by
    rw [acceptedRecs]
    by_cases h : gateOutcome seen r = .accepted
    · rw [if_pos h]
      exact (acceptedRecs_sublist rs _).cons₂ r
    · rw [if_neg h]
      exact (acceptedRecs_sublist rs _).cons r

theorem outcomesOf_length : ∀ (data : List Record) (seen : List (Option String)),
    (outcomesOf seen data).length = data.length
  | [], _ => rfl
  | r :: rs, seen => by
    rw [outcomesOf]
    simp [outcomesOf_length rs]

theorem acceptedRecs_length : ∀ (data : List Record) (seen : List (Option String)),
    (acceptedRecs seen data).length = (outcomesOf seen data).count .accepted
  | [], _ => rfl
  | r :: rs, seen => by
    rw [acceptedRecs, outcomesOf]
    by_cases h : gateOutcome seen r = .accepted
    · rw [if_pos h, h]
      simp [List.count_cons, acceptedRecs_length rs]
    · rw [if_neg h]
      rw [acceptedRecs_length rs]
      rcases ho : gateOutcome seen r <;> simp [ho] at h ⊢

theorem outcome_count_partition (l : List Outcome) :
    l.count .accepted + l.count .duplicate + l.count .invalid_email +
      l.count .brand_name + l.count .test_data + l.count .invalid_url = l.length := by
  induction l with
  | nil => rfl
  | cons o rest ih =>
    cases o <;> simp [List.count_cons] <;> omega

/-! ## Helper lemmas: strings as character lists -/

theorem string_mk_data (s : String) : String.mk s.data = s := rfl

theorem string_data_nil {s : String} : s.data = [] ↔ s = "" := by
  cases s with
  | mk d =>
    constructor
    · intro h
      have h2 : d = [] := h
      subst h2
      rfl
    · intro h
      rw [h]

theorem pyLower_data (s : String) : (pyLower s).data = lowerChars s.data := rfl

theorem lowerChars_fixed {X : List Char} (h : ∀ c ∈ X, Char.toLower c = c) :
    lowerChars X = X := by
  unfold lowerChars
  rw [List.map_congr_left h]
  simp

theorem getLast?_append_cons_ne_nil {X Y : List Char} {c : Char} (hY : Y ≠ []) :
    (X ++ c :: Y).getLast? = Y.getLast? := by
  obtain ⟨y, Y2, rfl⟩ := List.exists_cons_of_ne_nil hY
  rw [List.getLast?_append_of_ne_nil _ (by simp : (c :: y :: Y2) ≠ [])]
  rw [List.getLast?_cons_cons]

/-! ## Pool facts for the fallback generator (decided instance by instance) -/

theorem first_facts : ∀ f ∈ first_names,
    f ≠ "" ∧ (∀ c ∈ f.data, c.isWhitespace = false) ∧ pyLower f ≠ "the" ∧
    (∀ c ∈ (pyLower f).data,
      c.isWhitespace = false ∧ Char.toLower c = c ∧ emailLocalChar c = true ∧ c ≠ '@') ∧
    (∀ k ∈ brand_keywords, pyIn k (pyLower f) = false) := by decide

theorem last_facts : ∀ l ∈ last_names,
    l ≠ "" ∧ (∀ c ∈ l.data, c.isWhitespace = false) ∧
    (∀ c ∈ (pyLower l).data,
      c.isWhitespace = false ∧ Char.toLower c = c ∧ emailLocalChar c = true ∧ c ≠ '@') ∧
    (∀ k ∈ brand_keywords, pyIn k (pyLower l) = false) ∧
    (∀ w ∈ test_names, isSuffixList w.data (pyLower l).data = false) := by decide

theorem domain_facts : ∀ d ∈ email_domains,
    afterAt d.data = true ∧ (∀ c ∈ d.data, Char.toLower c = c ∧ c ≠ '@') := by decide

theorem keyword_facts : ∀ k ∈ brand_keywords, ' ' ∉ k.data := by decide

theorem test_word_facts : ∀ w ∈ test_names,
    w.data ≠ [] ∧ ' ' ∉ w.data ∧ '.' ∉ w.data ∧ (∀ c ∈ w.data, c.isAlpha = true) := by decide

theorem pools_ne_nil :
    first_names ≠ [] ∧ last_names ≠ [] ∧ email_domains ≠ [] := by decide

theorem pyChoice_mem {l : List String} (hne : l ≠ []) (k : Nat) : pyChoice l k ∈ l := by
  unfold pyChoice
  have hlt : k % l.length < l.length := Nat.mod_lt _ (List.length_pos.mpr hne)
  rw [List.getD_eq_getElem?_getD, List.getElem?_eq_getElem hlt]
  exact List.getElem_mem hlt

/-! ## Shape of the emails produced by the collision loop -/

theorem emailCandidate_eq (base domain : String) (c : Nat) :
    emailCandidate base domain c = base ++ Nat.repr c ++ "@" ++ domain := rfl

theorem resolveFrom_shape (base domain : String) (used : List String) :
    ∀ (fuel ctr : Nat), ∃ c : Nat,
      resolveFrom base domain used ctr fuel = base ++ Nat.repr c ++ "@" ++ domain := by
  intro fuel
  induction fuel with
  | zero => intro ctr; exact ⟨ctr, rfl⟩
  | succ fuel ih =>
    intro ctr
    rw [resolveFrom]
    split
    · exact ih (ctr + 1)
    · exact ⟨ctr, rfl⟩

theorem resolveEmail_shape (base domain : String) (used : List String) :
    ∃ suf : String, (suf = "" ∨ ∃ c : Nat, suf = Nat.repr c) ∧
      resolveEmail base domain used = base ++ suf ++ "@" ++ domain := by
  rw [resolveEmail]
  split
  · obtain ⟨c, hc⟩ := resolveFrom_shape base domain used (used.length + 1) 1
    exact ⟨Nat.repr c, Or.inr ⟨c, rfl⟩, hc⟩
  · exact ⟨"", Or.inl rfl, by simp⟩

/-! ## The generated names pass the name validators -/

theorem gen_name_valid {f l : String} (hf : f ∈ first_names) (hl : l ∈ last_names) :
    is_valid_name (some (f ++ " " ++ l)) = true ∧
    test_names.contains (pyLower (f ++ " " ++ l)) = false := by
  obtain ⟨hfne, hfws, hfthe, hflow, hfkw⟩ := first_facts f hf
  obtain ⟨hlne, hlws, hllow, hlkw, -⟩ := last_facts l hl
  have hfd : f.data ≠ [] := fun h => hfne (string_data_nil.mp h)
  have hld : l.data ≠ [] := fun h => hlne (string_data_nil.mp h)
  have hfld : (pyLower f).data ≠ [] := by
    rw [pyLower_data]
    simpa [lowerChars] using hfd
  have hlld : (pyLower l).data ≠ [] := by
    rw [pyLower_data]
    simpa [lowerChars] using hld
  have hdata : (f ++ " " ++ l).data = f.data ++ ' ' :: l.data := by
    simp [String.data_append]
  have hlowdata : (pyLower (f ++ " " ++ l)).data = (pyLower f).data ++ ' ' :: (pyLower l).data := by
    rw [pyLower_data, hdata]
    show List.map Char.toLower (f.data ++ ' ' :: l.data) = _
    rw [List.map_append, List.map_cons]
    rfl
  have hstrip : stripChars (f.data ++ ' ' :: l.data) = f.data ++ ' ' :: l.data := by
    apply stripChars_eq_self
    · intro c hc
      obtain ⟨a, fa, hfa⟩ := List.exists_cons_of_ne_nil hfd
      rw [hfa, List.cons_append, List.head?_cons, Option.some.injEq] at hc
      exact hc ▸ hfws a (hfa ▸ List.mem_cons_self _ _)
    · intro c hc
      rw [getLast?_append_cons_ne_nil hld] at hc
      exact hlws c (List.mem_of_getLast?_eq_some hc)
  have hstripLow :
      stripChars ((pyLower f).data ++ ' ' :: (pyLower l).data) =
        (pyLower f).data ++ ' ' :: (pyLower l).data := by
    apply stripChars_eq_self
    · intro c hc
      obtain ⟨a, fa, hfa⟩ := List.exists_cons_of_ne_nil hfld
      rw [hfa, List.cons_append, List.head?_cons, Option.some.injEq] at hc
      exact hc ▸ (hflow a (hfa ▸ List.mem_cons_self _ _)).1
    · intro c hc
      rw [getLast?_append_cons_ne_nil hlld] at hc
      exact (hllow c (List.mem_of_getLast?_eq_some hc)).1
  have hstripdata :
      (pyStrip (pyLower (f ++ " " ++ l))).data = (pyLower f).data ++ ' ' :: (pyLower l).data := by
    show stripChars (pyLower (f ++ " " ++ l)).data = _
    rw [hlowdata, hstripLow]
  have hspace_f : ' ' ∉ (pyLower f).data := by
    intro hm
    have := (hflow ' ' hm).1
    simp [Char.isWhitespace] at this
  have hkw : brand_keywords.any (fun k => pyIn k (pyStrip (pyLower (f ++ " " ++ l)))) = false := by
    rw [Bool.eq_false_iff]
    intro h
    obtain ⟨k, hk, hp⟩ := List.any_eq_true.mp h
    rw [pyIn, hstripdata] at hp
    rcases containsSub_append_cons hp (keyword_facts k hk) with h1 | h2
    · have hff := hfkw k hk
      rw [pyIn] at hff
      rw [hff] at h1
      exact absurd h1 (by simp)
    · have hll2 := hlkw k hk
      rw [pyIn] at hll2
      rw [hll2] at h2
      exact absurd h2 (by simp)
  have hthe2 : pyStartsWith (pyStrip (pyLower (f ++ " " ++ l))) "the " = false := by
    rw [Bool.eq_false_iff]
    intro h
    rw [pyStartsWith, hstripdata] at h
    obtain ⟨t, ht⟩ := isPrefixList_iff.mp h
    have ht2 : (pyLower f).data ++ ' ' :: (pyLower l).data = ['t', 'h', 'e'] ++ ' ' :: t := by
      rw [ht]
      rfl
    obtain ⟨hf3, -⟩ := append_cons_eq_append_cons ht2 hspace_f (by decide)
    apply hfthe
    have h4 := congrArg String.mk hf3
    rwa [string_mk_data] at h4
  constructor
  · have hne : (f ++ " " ++ l) ≠ "" := by
      intro h
      have h2 : (f ++ " " ++ l).data = [] := by rw [h]
      rw [hdata] at h2
      simp at h2
    have hsd : (pyStrip (f ++ " " ++ l)).data = f.data ++ ' ' :: l.data := by
      show stripChars (f ++ " " ++ l).data = _
      rw [hdata, hstrip]
    have hlen : ¬ (pyLen (pyStrip (f ++ " " ++ l)) < 2) := by
      rw [pyLen, hsd, List.length_append, List.length_cons]
      have := List.length_pos.mpr hfd
      omega
    rw [is_valid_name]
    rw [if_neg hne, if_neg hlen]
    simp only [hkw, hthe2, if_false, Bool.false_eq_true]
  · rw [Bool.eq_false_iff]
    intro h
    obtain ⟨w, hw, hbeq⟩ := List.contains_iff_exists_mem_beq.mp h
    have heq : pyLower (f ++ " " ++ l) = w := by
      simpa using hbeq
    obtain ⟨-, hwsp, -, -⟩ := test_word_facts w hw
    apply hwsp
    have hd2 : w.data = (pyLower f).data ++ ' ' :: (pyLower l).data := by
      rw [← heq, hlowdata]
    rw [hd2]
    exact List.mem_append_right _ (List.mem_cons_self _ _)

/-! ## The generated emails pass the email validators -/

/-- The local part of a generated email cannot end in one of the test
words: with a counter suffix it ends in a digit, and without one it ends
in a last name from the pool. -/
theorem no_ends_with_word {w : String} (hwmem : w ∈ test_names) {lf ll sufd s : List Char}
    (hllfact : ∀ w2 ∈ test_names, isSuffixList w2.data ll = false)
    (hsufd : ∀ c ∈ sufd, c.isAlpha = false)
    (hXs : lf ++ '.' :: (ll ++ sufd) = s ++ w.data) : False := by
  obtain ⟨hwne, -, hwdot, hwalpha⟩ := test_word_facts w hwmem
  cases sufd with
  | nil =>
    rw [List.append_nil] at hXs
    rcases le_or_lt w.data.length ll.length with hle | hlt
    · have hX2 : (lf ++ ['.']) ++ ll = s ++ w.data := by
        rw [← hXs]
        simp
      obtain ⟨s2, hs2⟩ := ends_with_right hX2 hle
      have h5 : isSuffixList w.data ll = true := isSuffixList_iff.mpr ⟨s2, hs2⟩
      rw [hllfact w hwmem] at h5
      exact absurd h5 (by simp)
    · exact hwdot (mem_of_append_cons_short hXs hlt)
  | cons c0 sf =>
    have hsne : (c0 :: sf : List Char) ≠ [] := by simp
    have hlast1 : (lf ++ '.' :: (ll ++ c0 :: sf)).getLast? = (c0 :: sf).getLast? := by
      rw [getLast?_append_cons_ne_nil (by simp : ll ++ c0 :: sf ≠ [])]
      rw [List.getLast?_append_of_ne_nil _ hsne]
    have hlast2 : (s ++ w.data).getLast? = w.data.getLast? :=
      List.getLast?_append_of_ne_nil _ hwne
    obtain ⟨cl, hcl⟩ : ∃ cl, (c0 :: sf).getLast? = some cl := by
      cases h2 : (c0 :: sf).getLast? with
      | none => exact absurd (List.getLast?_eq_none_iff.mp h2) hsne
      | some v => exact ⟨v, rfl⟩
    have hceq : w.data.getLast? = some cl := by
      rw [← hlast2, ← hXs, hlast1, hcl]
    have h6 : cl.isAlpha = false := hsufd cl (List.mem_of_getLast?_eq_some hcl)
    have h7 : cl.isAlpha = true := hwalpha cl (List.mem_of_getLast?_eq_some hceq)
    rw [h6] at h7
    exact absurd h7 (by simp)

theorem gen_email_props {f l d : String} (hf : f ∈ first_names) (hl : l ∈ last_names)
    (hd : d ∈ email_domains) {suf : String}
    (hsuf : suf = "" ∨ ∃ c : Nat, suf = Nat.repr c) :
    validate_email (some (pyLower f ++ "." ++ pyLower l ++ suf ++ "@" ++ d)) = true ∧
    emailTestHit (pyLower f ++ "." ++ pyLower l ++ suf ++ "@" ++ d) = false := by
  obtain ⟨-, -, -, hflow, -⟩ := first_facts f hf
  obtain ⟨hlne, -, hllow, -, hllsuf⟩ := last_facts l hl
  obtain ⟨hdaft, hdchar⟩ := domain_facts d hd
  have hfld : (pyLower f).data ≠ [] := by
    obtain ⟨hfne, -⟩ := first_facts f hf
    rw [pyLower_data]
    simp only [lowerChars, ne_eq, List.map_eq_nil_iff]
    intro h
    exact hfne (string_data_nil.mp h)
  have hsufd : ∀ c ∈ suf.data, Char.toLower c = c ∧ emailLocalChar c = true ∧
      c ≠ '@' ∧ c.isAlpha = false := by
    rcases hsuf with rfl | ⟨c0, rfl⟩
    · intro c hc
      exact absurd hc (by simp [show ("" : String).data = [] from rfl])
    · intro c hc
      obtain ⟨-, h1, h2, h3, -, -, h4⟩ := repr_chars c0 c hc
      exact ⟨h1, h2, h3, h4⟩
  have hX : (pyLower f ++ "." ++ pyLower l ++ suf ++ "@" ++ d).data =
      ((pyLower f).data ++ '.' :: ((pyLower l).data ++ suf.data)) ++ '@' :: d.data := by
    simp [String.data_append]
  have hXat : '@' ∉ (pyLower f).data ++ '.' :: ((pyLower l).data ++ suf.data) := by
    intro hm
    rcases List.mem_append.mp hm with h | h
    · exact (hflow '@' h).2.2.2 rfl
    · rcases List.mem_cons.mp h with h2 | h2
      · exact absurd h2 (by decide)
      · rcases List.mem_append.mp h2 with h3 | h3
        · exact (hllow '@' h3).2.2.2 rfl
        · exact (hsufd '@' h3).2.2.1 rfl
  have hdat : '@' ∉ d.data := fun hm => (hdchar '@' hm).2 rfl
  constructor
  · apply validate_email_of_match
    rw [hX]
    apply emailMatch_iff.mpr
    obtain ⟨m, t, hmt, hmne, hmdom, hlen, halpha⟩ := afterAt_iff.mp hdaft
    refine ⟨(pyLower f).data ++ '.' :: ((pyLower l).data ++ suf.data), m, t, ?_, ?_, ?_,
      hmne, hmdom, hlen, halpha⟩
    · rw [hmt]
    · simp
    · intro c hc
      rcases List.mem_append.mp hc with h | h
      · exact (hflow c h).2.2.1
      · rcases List.mem_cons.mp h with rfl | h2
        · decide
        · rcases List.mem_append.mp h2 with h3 | h3
          · exact (hllow c h3).2.2.1
          · exact (hsufd c h3).2.1
  · have hfix : pyLower (pyLower f ++ "." ++ pyLower l ++ suf ++ "@" ++ d) =
        pyLower f ++ "." ++ pyLower l ++ suf ++ "@" ++ d := by
      have h1 : lowerChars (pyLower f ++ "." ++ pyLower l ++ suf ++ "@" ++ d).data =
          (pyLower f ++ "." ++ pyLower l ++ suf ++ "@" ++ d).data := by
        apply lowerChars_fixed
        rw [hX]
        intro c hc
        rcases List.mem_append.mp hc with h | h
        · rcases List.mem_append.mp h with h2 | h2
          · exact (hflow c h2).2.1
          · rcases List.mem_cons.mp h2 with rfl | h3
            · decide
            · rcases List.mem_append.mp h3 with h4 | h4
              · exact (hllow c h4).2.1
              · exact (hsufd c h4).1
        · rcases List.mem_cons.mp h with rfl | h2
          · decide
          · exact (hdchar c h2).1
      show String.mk (lowerChars (pyLower f ++ "." ++ pyLower l ++ suf ++ "@" ++ d).data) = _
      rw [h1, string_mk_data]
    rw [emailTestHit, hfix, Bool.eq_false_iff]
    intro h
    obtain ⟨p, hp, hin⟩ := List.any_eq_true.mp h
    rw [pyIn, hX] at hin
    have hsufa : ∀ c ∈ suf.data, c.isAlpha = false := fun c hc => (hsufd c hc).2.2.2
    simp only [test_emails, List.mem_cons, List.not_mem_nil, or_false] at hp
    rcases hp with rfl | rfl | rfl | rfl | rfl
    · obtain ⟨s, hXs⟩ := sub_pattern_at (w := ("test" : String).data) hin hXat hdat
      exact no_ends_with_word (by decide) hllsuf hsufa hXs
    · obtain ⟨s, hXs⟩ := sub_pattern_at (w := ("example" : String).data) hin hXat hdat
      exact no_ends_with_word (by decide) hllsuf hsufa hXs
    · obtain ⟨s, hXs⟩ := sub_pattern_at (w := ("sample" : String).data) hin hXat hdat
      exact no_ends_with_word (by decide) hllsuf hsufa hXs
    · obtain ⟨s, hXs⟩ := sub_pattern_at (w := ("demo" : String).data) hin hXat hdat
      exact no_ends_with_word (by decide) hllsuf hsufa hXs
    · obtain ⟨s, hXs⟩ := sub_pattern_at (w := ("placeholder" : String).data) hin hXat hdat
      exact no_ends_with_word (by decide) hllsuf hsufa hXs

/-! ## The generated profile links pass the URL validator -/

theorem twine_url_valid (slug pid_s : String) :
    validate_profile_url (some ("https://www.twine.net/profile/" ++ slug ++ "-" ++ pid_s)) = true := by
  have hdata : ("https://www.twine.net/profile/" ++ slug ++ "-" ++ pid_s).data =
      ("https://www.twine.net/profile/" : String).data ++ (slug.data ++ '-' :: pid_s.data) := by
    simp [String.data_append]
  rw [validate_profile_url]
  have hne : ("https://www.twine.net/profile/" ++ slug ++ "-" ++ pid_s) ≠ "" := by
    intro h
    have h2 := congrArg String.data h
    rw [hdata] at h2
    simp [show ("" : String).data = [] from rfl] at h2
  rw [if_neg hne]
  apply Bool.and_eq_true_iff.mpr
  constructor
  · rw [pyStartsWith]
    refine isPrefixList_iff.mpr
      ⟨("profile/" : String).data ++ (slug.data ++ '-' :: pid_s.data), ?_⟩
    have hsplit : ("https://www.twine.net/profile/" : String).data =
        ("https://www.twine.net/" : String).data ++ ("profile/" : String).data := by decide
    rw [hdata, hsplit]
    simp [List.append_assoc]
  · apply decide_eq_true
    have h30 : ("https://www.twine.net/profile/" : String).data.length = 30 := by decide
    have hlen2 : (slug.data ++ '-' :: pid_s.data).length =
        slug.data.length + (pid_s.data.length + 1) := by
      rw [List.length_append, List.length_cons]
    rw [pyLen, hdata, List.length_append, h30, hlen2]
    omega

/-! ## Every generated (non-invalid) Record passes all four validators -/

theorem genRecord_valid (rt rs : String) (pf pl pd : Nat → Nat) (i : Nat)
    (used : List String) :
    validate_email (some (genEmail pf pl pd i used)) = true ∧
    is_valid_name (some (genName pf pl i)) = true ∧
    is_test_data (some (genEmail pf pl pd i used)) (some (genName pf pl i)) = some false ∧
    validate_profile_url (some (genLink rt rs pf pl i)) = true := by
  have hf : pyChoice first_names (pf i) ∈ first_names := pyChoice_mem pools_ne_nil.1 _
  have hl : pyChoice last_names (pl i) ∈ last_names := pyChoice_mem pools_ne_nil.2.1 _
  have hd : pyChoice email_domains (pd i) ∈ email_domains := pyChoice_mem pools_ne_nil.2.2 _
  obtain ⟨hnm, hnc⟩ := gen_name_valid hf hl
  obtain ⟨suf, hsuf, hres⟩ := resolveEmail_shape
    (pyLower (pyChoice first_names (pf i)) ++ "." ++ pyLower (pyChoice last_names (pl i)))
    (pyChoice email_domains (pd i)) used
  obtain ⟨hev, hhit⟩ := gen_email_props hf hl hd hsuf
  refine ⟨?_, hnm, ?_, ?_⟩
  · rw [genEmail, hres]
    exact hev
  · rw [is_test_data, genEmail, hres, genName]
    simp only [hhit, if_false, Bool.false_eq_true, hnc]
  · rw [genLink]
    exact twine_url_valid _ _

theorem genLoop_length (rt rs rd : String) (pf pl pd : Nat → Nat) :
    ∀ (n i : Nat) (used : List String), (genLoop rt rs rd pf pl pd i n used).length = n
  | 0, _, _ => rfl
  | n + 1, i, used => by
    rw [genLoop, List.length_cons, genLoop_length rt rs rd pf pl pd n]

theorem genLoop_mem (rt rs rd : String) (pf pl pd : Nat → Nat) :
    ∀ (n i : Nat) (used : List String) (r : Record),
      r ∈ genLoop rt rs rd pf pl pd i n used →
      validate_email r.email = true ∧ is_valid_name r.name = true ∧
      is_test_data r.email r.name = some false ∧ validate_profile_url r.profile_link = true
  | 0, _, _, r => by
    intro hr
    simp [genLoop] at hr
  | n + 1, i, used, r => by
    intro hr
    rw [genLoop] at hr
    rcases List.mem_cons.mp hr with rfl | htail
    · exact genRecord_valid rt rs pf pl pd i used
    · exact genLoop_mem rt rs rd pf pl pd n (i + 1) _ r htail

/-! ## Concrete sample records used by witnesses -/

def johnRecord : Record :=
  ⟨some "John Smith", some "john.smith@gmail.com",
   some "https://www.twine.net/profile/john-smith-1", some "UGC Creator"⟩

/-! # Claim theorems -/

/-- C1: `clean_data` applies its gates in the exact source order
duplicate-check, email-validity, person-name, test-data, URL-validity,
stopping at the first failing gate, so each Record ends accepted or
rejected with exactly the reason of its first failing gate; in particular
a Record with both an invalid email and a brand-like name (and not a
duplicate) is counted under `invalid_emails` and never under
`brand_names`. -/
theorem clean_data_gate_order (seen : List (Option String)) (r : Record) :
    (gateOutcome seen r = .duplicate ↔ seen.contains r.email = true) ∧
    (gateOutcome seen r = .invalid_email ↔
      seen.contains r.email = false ∧ validate_email r.email = false) ∧
    (gateOutcome seen r = .brand_name ↔
      seen.contains r.email = false ∧ validate_email r.email = true ∧
        is_valid_name r.name = false) ∧
    (gateOutcome seen r = .test_data ↔
      seen.contains r.email = false ∧ validate_email r.email = true ∧
        is_valid_name r.name = true ∧ (is_test_data r.email r.name).getD false = true) ∧
    (gateOutcome seen r = .invalid_url ↔
      seen.contains r.email = false ∧ validate_email r.email = true ∧
        is_valid_name r.name = true ∧ (is_test_data r.email r.name).getD false = false ∧
        validate_profile_url r.profile_link = false) ∧
    (gateOutcome seen r = .accepted ↔
      seen.contains r.email = false ∧ validate_email r.email = true ∧
        is_valid_name r.name = true ∧ (is_test_data r.email r.name).getD false = false ∧
        validate_profile_url r.profile_link = true) ∧
    (seen.contains r.email = false → validate_email r.email = false →
      is_valid_name r.name = false →
      (clean_data seen [r]).stats.invalid_emails = 1 ∧
        (clean_data seen [r]).stats.brand_names = 0) := by
  by_cases h1 : seen.contains r.email = true <;>
    by_cases h2 : validate_email r.email = true <;>
      by_cases h3 : is_valid_name r.name = true <;>
        by_cases h4 : (is_test_data r.email r.name).getD false = true <;>
          by_cases h5 : validate_profile_url r.profile_link = true <;>
            simp_all [gateOutcome, clean_data, cleanStep, initState, List.foldl]

/-- C1 witness: a concrete non-duplicate Record with a brand-like name and
an invalid email is counted as an invalid email, not as a brand name. -/
theorem clean_data_gate_order_witness :
    (clean_data [] [⟨some "Acme Studio", some "not-an-email", some "x", none⟩]).stats.invalid_emails = 1 ∧
    (clean_data [] [⟨some "Acme Studio", some "not-an-email", some "x", none⟩]).stats.brand_names = 0 :=
  (clean_data_gate_order [] ⟨some "Acme Studio", some "not-an-email", some "x", none⟩).2.2.2.2.2.2
    (by decide) (by decide) (by decide)

/-- C2: the seen-set is extended only when a Record passes all five gates
(a rejected Record never consumes a dedup slot), and a batch holding the
same fully-valid Record twice, started from an empty seen-set, yields
exactly one acceptance and one duplicate rejection. -/
theorem clean_data_dedup_slot (st : CleanState) (r : Record) :
    (gateOutcome st.seen_emails r ≠ .accepted → (cleanStep st r).seen_emails = st.seen_emails) ∧
    (validate_email r.email = true → is_valid_name r.name = true →
      is_test_data r.email r.name = some false → validate_profile_url r.profile_link = true →
      (clean_data [] [r, r]).cleaned = [r] ∧
        (clean_data [] [r, r]).stats = ⟨1, 0, 0, 0, 0⟩) := by
  constructor
  · intro h
    cases ho : gateOutcome st.seen_emails r <;>
      first
        | exact absurd ho h
        | simp [cleanStep, ho]
  · intro h1 h2 h3 h4
    have hg1 : gateOutcome [] r = .accepted := by
      unfold gateOutcome
      simp [h1, h2, h3, h4]
    have hg2 : gateOutcome [r.email] r = .duplicate := by
      unfold gateOutcome
      simp
    constructor <;>
      simp [clean_data, initState, List.foldl, cleanStep, hg1, hg2]

/-- C2 witness: the concrete fully-valid `johnRecord` fed twice. -/
theorem clean_data_dedup_slot_witness :
    (clean_data [] [johnRecord, johnRecord]).cleaned = [johnRecord] ∧
    (clean_data [] [johnRecord, johnRecord]).stats = ⟨1, 0, 0, 0, 0⟩ :=
  (clean_data_dedup_slot (initState []) johnRecord).2
    (by decide) (by decide) (by decide) (by decide)

/-- C3 counterexample: by the semantics of the non-MULTILINE `$` anchor,
`re.match` also accepts a match that stops just before a single trailing
newline, so `validate_email("a@b.co
")` returns True although the string
is not of the shape `local-part@domain.tld`. -/
theorem validate_email_newline_counterexample :
    validate_email (some "a@b.co
") = true ∧ ¬ EmailShapeSpec (some "a@b.co
") := by
  constructor
  · decide
  · rintro ⟨s, hs, hdec⟩
    have hseq : s = "a@b.co
" := by injection hs with h; exact h.symm
    subst hseq
    have h1 : emailMatch ("a@b.co
" : String).data = true := emailMatch_iff.mpr hdec
    have h2 : emailMatch ("a@b.co
" : String).data = false := by decide
    rw [h2] at h1
    exact absurd h1 (by simp)

/-- C3 amended: `validate_email` returns true iff its input is a string of
the claimed shape `local-part@domain.tld`, or such a string followed by
exactly one trailing newline (an artifact of `re.match`'s `$` anchor). -/
theorem validate_email_shape (e : Option String) :
    validate_email e = true ↔
      ∃ s, e = some s ∧
        (EmailDecomp s.data ∨ ∃ u, s.data = u ++ ['\n'] ∧ EmailDecomp u) := by
  cases e with
  | none => simp [validate_email]
  | some s =>
    rw [validate_email]
    by_cases hs : s = ""
    · subst hs
      rw [if_pos rfl]
      constructor
      · intro h
        exact absurd h (by simp)
      · rintro ⟨s2, hs2, hdec | ⟨u, hu, -⟩⟩
        · have hseq : s2 = "" := by injection hs2 with h; exact h.symm
          subst hseq
          obtain ⟨l, m, t, heq, -⟩ := hdec
          have := congrArg List.length heq
          simp [show ("" : String).data = [] from rfl] at this
          exact absurd this (by omega)
        · have hseq : s2 = "" := by injection hs2 with h; exact h.symm
          subst hseq
          have := congrArg List.length hu
          simp [show ("" : String).data = [] from rfl] at this
    · rw [if_neg hs, reMatchEmail]
      constructor
      · intro h
        rcases Bool.or_eq_true_iff.mp h with h1 | h2
        · exact ⟨s, rfl, Or.inl (emailMatch_iff.mp h1)⟩
        · obtain ⟨hlast, hmatch⟩ := Bool.and_eq_true_iff.mp h2
          have hlast2 : s.data.getLast? = some '\n' := eq_of_beq hlast
          have hne : s.data ≠ [] := by
            intro h3
            rw [h3] at hlast2
            simp at hlast2
          refine ⟨s, rfl, Or.inr ⟨s.data.dropLast, ?_, emailMatch_iff.mp hmatch⟩⟩
          have hgl : s.data.getLast hne = '\n' := by
            have h4 := List.getLast?_eq_getLast s.data hne
            rw [h4] at hlast2
            exact Option.some.inj hlast2
          rw [← hgl]
          exact (List.dropLast_append_getLast hne).symm
      · rintro ⟨s2, hs2, hdec | ⟨u, hu, hdec⟩⟩
        · have hseq : s2 = s := by injection hs2 with h; exact h.symm
          subst hseq
          exact Bool.or_eq_true_iff.mpr (Or.inl (emailMatch_iff.mpr hdec))
        · have hseq : s2 = s := by injection hs2 with h; exact h.symm
          subst hseq
          apply Bool.or_eq_true_iff.mpr
          right
          apply Bool.and_eq_true_iff.mpr
          constructor
          · rw [hu, List.getLast?_concat]
            simp
          · rw [hu, List.dropLast_concat]
            exact emailMatch_iff.mpr hdec

/-- C4 counterexample: `is_test_data` compares the lower-cased name
without trimming (`name.lower() in test_names`), so a name that is
`"test"` surrounded by whitespace is not flagged, although the claimed
trimmed comparison would flag it. -/
theorem is_test_data_trim_counterexample :
    is_test_data (some "john@gmail.com") (some "Test ") = some false ∧
    is_test_data_spec "john@gmail.com" "Test " = true := by
  constructor
  · decide
  · decide

/-- C4 amended: `is_test_data` returns true iff the lower-cased email
contains one of the five test prefixes as a substring, or the lower-cased
(un-trimmed) name is exactly one of the five test names. -/
theorem is_test_data_characterization (e n : String) :
    is_test_data (some e) (some n) = some true ↔
      ((∃ p ∈ test_emails, ∃ s t, (pyLower e).data = s ++ p.data ++ t) ∨
        pyLower n ∈ test_names) := by
  rw [is_test_data]
  constructor
  · intro hres
    by_cases h : emailTestHit e = true
    · left
      obtain ⟨p, hp, hin⟩ := List.any_eq_true.mp h
      rw [pyIn] at hin
      obtain ⟨s, t, hst⟩ := containsSub_iff.mp hin
      exact ⟨p, hp, s, t, hst⟩
    · right
      rw [Bool.not_eq_true] at h
      simp only [h, Bool.false_eq_true, if_false] at hres
      have h2 : test_names.contains (pyLower n) = true := Option.some.inj hres
      exact List.elem_iff.mp h2
  · intro hr
    rcases hr with ⟨p, hp, s, t, hst⟩ | hmem
    · have h : emailTestHit e = true :=
        List.any_eq_true.mpr ⟨p, hp, by rw [pyIn]; exact containsSub_iff.mpr ⟨s, t, hst⟩⟩
      simp [h]
    · by_cases h : emailTestHit e = true
      · simp [h]
      · rw [Bool.not_eq_true] at h
        simp only [h, Bool.false_eq_true, if_false, List.elem_iff.mpr hmem]

/-- C5 counterexample: `is_test_data(None, name)` evaluates
`email.lower()` on `None` and raises an `AttributeError` (modelled as a
`none` result), so not every per-Record validator is total on
string-or-null inputs. -/
theorem is_test_data_none_counterexample :
    is_test_data none (some "John Smith") = none := rfl

/-- C5 amended: `validate_email`, `is_valid_name` and
`validate_profile_url` are total on string-or-null inputs (`None` and the
empty string give `false` without raising); `is_test_data` returns a
boolean exactly when the email is a string and either the name is a
string or the email already matches a test prefix (Python `or`
short-circuit) — it raises when the email is null, or when the name is
null and the email test misses. -/
theorem validators_totality (e n : Option String) :
    validate_email none = false ∧ validate_email (some "") = false ∧
    is_valid_name none = false ∧ is_valid_name (some "") = false ∧
    validate_profile_url none = false ∧ validate_profile_url (some "") = false ∧
    ((is_test_data e n).isSome = true ↔
      ∃ s, e = some s ∧ (n ≠ none ∨ emailTestHit s = true)) := by
  refine ⟨rfl, rfl, rfl, rfl, rfl, rfl, ?_⟩
  cases e with
  | none => simp [is_test_data]
  | some s =>
    by_cases h : emailTestHit s = true
    · simp [is_test_data, h]
    · rw [Bool.not_eq_true] at h
      cases n with
      | none => simp [is_test_data, h]
      | some n2 => simp [is_test_data, h]

/-- C6: for every role type, target count and sequence of random draws,
each of the `count` generated Records (every produced Record other than
the fixed intentionally-invalid entries appended at the end) passes all
four validators: valid email syntax, person-like name, not test data, and
a profile link with the target-site prefix and more than 30 characters. -/
theorem generate_fallback_valid (role_type : String) (count : Nat) (pf pl pd : Nat → Nat)
    (r : Record) (hr : r ∈ (generate_fallback_profiles role_type count pf pl pd).take count) :
    validate_email r.email = true ∧ is_valid_name r.name = true ∧
    is_test_data r.email r.name = some false ∧ validate_profile_url r.profile_link = true := by
  simp only [generate_fallback_profiles] at hr
  rw [List.take_left' (genLoop_length _ _ _ pf pl pd count 0 [])] at hr
  exact genLoop_mem _ _ _ pf pl pd count 0 [] r hr

/-- C6 witness: the first generated record for role `ugc_creators` under
the all-zero draw oracles. -/
theorem generate_fallback_valid_witness :
    validate_email (some "emma.smith@gmail.com") = true ∧
    is_valid_name (some "Emma Smith") = true ∧
    is_test_data (some "emma.smith@gmail.com") (some "Emma Smith") = some false ∧
    validate_profile_url (some "https://www.twine.net/profile/emma-smith-ugc-creator-1") = true :=
  generate_fallback_valid "ugc_creators" 1 (fun _ => 0) (fun _ => 0) (fun _ => 0)
    ⟨some "Emma Smith", some "emma.smith@gmail.com",
     some "https://www.twine.net/profile/emma-smith-ugc-creator-1", some "UGC Creator"⟩
    (by decide)

/-- C7: for every input sequence and seen-set, `clean_data` produces the
accepted Records (in order) together with a summary holding one counter
per rejection reason — each equal to the number of Records whose first
failing gate is that reason — and the logged report carries the total
input count and the total accepted count. -/
theorem clean_data_reports (seen : List (Option String)) (data : List Record) :
    (clean_data seen data).cleaned = acceptedRecs seen data ∧
    (clean_report data (clean_data seen data)).raw_profiles = data.length ∧
    (clean_report data (clean_data seen data)).valid_profiles =
      (clean_data seen data).cleaned.length ∧
    (clean_data seen data).stats.duplicates = (outcomesOf seen data).count .duplicate ∧
    (clean_data seen data).stats.invalid_emails = (outcomesOf seen data).count .invalid_email ∧
    (clean_data seen data).stats.brand_names = (outcomesOf seen data).count .brand_name ∧
    (clean_data seen data).stats.test_data = (outcomesOf seen data).count .test_data ∧
    (clean_data seen data).stats.invalid_urls = (outcomesOf seen data).count .invalid_url := by
  rw [clean_data_eq]
  exact ⟨rfl, rfl, rfl, rfl, rfl, rfl, rfl, rfl⟩

/-- C8: conservation — for every batch and every initial seen-set, the
number of input Records equals the number of accepted Records plus the
sum of the five rejection counters. -/
theorem clean_data_conservation (seen : List (Option String)) (data : List Record) :
    data.length = (clean_data seen data).cleaned.length +
      ((clean_data seen data).stats.duplicates + (clean_data seen data).stats.invalid_emails +
        (clean_data seen data).stats.brand_names + (clean_data seen data).stats.test_data +
        (clean_data seen data).stats.invalid_urls) := by
  rw [clean_data_eq]
  have hp := outcome_count_partition (outcomesOf seen data)
  have hl := outcomesOf_length data seen
  have ha := acceptedRecs_length data seen
  simp only [tally]
  omega

/-- C9: duplicate detection is case-sensitive with no normalization: two
otherwise-valid Records whose emails differ only in letter case are both
accepted from an empty seen-set, and the duplicates counter stays zero. -/
theorem clean_data_case_sensitive_dedup (r1 r2 : Record) (e1 e2 : String)
    (he1 : r1.email = some e1) (he2 : r2.email = some e2)
    (hne : e1 ≠ e2) (hcase : pyLower e1 = pyLower e2)
    (hv1 : validate_email r1.email = true ∧ is_valid_name r1.name = true ∧
      is_test_data r1.email r1.name = some false ∧
      validate_profile_url r1.profile_link = true)
    (hv2 : validate_email r2.email = true ∧ is_valid_name r2.name = true ∧
      is_test_data r2.email r2.name = some false ∧
      validate_profile_url r2.profile_link = true) :
    (clean_data [] [r1, r2]).cleaned = [r1, r2] ∧
    (clean_data [] [r1, r2]).stats.duplicates = 0 := by
  obtain ⟨h1e, h1n, h1t, h1u⟩ := hv1
  obtain ⟨h2e, h2n, h2t, h2u⟩ := hv2
  have hg1 : gateOutcome [] r1 = .accepted := by
    unfold gateOutcome
    simp [h1e, h1n, h1t, h1u]
  have hg2 : gateOutcome [r1.email] r2 = .accepted := by
    have hne2 : r2.email ≠ r1.email := by
      rw [he1, he2]
      intro hx
      exact hne (Option.some.inj hx).symm
    unfold gateOutcome
    simp [hne2, h2e, h2n, h2t, h2u]
  constructor <;>
    simp [clean_data, initState, List.foldl, cleanStep, hg1, hg2]

/-- C9 witness: `a@b.com` and `A@b.com` on two concrete otherwise-valid
records. -/
theorem clean_data_case_sensitive_dedup_witness :
    (clean_data []
      [⟨some "John Smith", some "a@b.com",
        some "https://www.twine.net/profile/john-smith-1", none⟩,
       ⟨some "Jane Doe", some "A@b.com",
        some "https://www.twine.net/profile/jane-doe-22", none⟩]).cleaned =
      [⟨some "John Smith", some "a@b.com",
        some "https://www.twine.net/profile/john-smith-1", none⟩,
       ⟨some "Jane Doe", some "A@b.com",
        some "https://www.twine.net/profile/jane-doe-22", none⟩] ∧
    (clean_data []
      [⟨some "John Smith", some "a@b.com",
        some "https://www.twine.net/profile/john-smith-1", none⟩,
       ⟨some "Jane Doe", some "A@b.com",
        some "https://www.twine.net/profile/jane-doe-22", none⟩]).stats.duplicates = 0 :=
  clean_data_case_sensitive_dedup _ _ "a@b.com" "A@b.com" rfl rfl
    (by decide) (by decide) (by decide) (by decide)

/-- C10: the pipeline never modifies a Record: the accepted output is a
subsequence of the input in the original relative order, and each
accepted Record is (field-for-field) the very input Record. -/
theorem clean_data_no_mutation (seen : List (Option String)) (data : List Record) :
    ((clean_data seen data).cleaned).Sublist data := by
  rw [clean_data_eq]
  exact acceptedRecs_sublist data seen

end Twine
